import Mathlib

set_option maxRecDepth 100000

/-!
Verification development for the dependency-tree scope-marking program
(`classification/dependencytree.py`).  The Python classes `Node`, `Edge`
and `Tree` are embedded shallowly: nodes are (word, index) pairs (Python
node equality ignores the mutable markings), the mutable per-node
`scope_markings` dictionary becomes an explicit state `MarkState`
threaded through the marking passes, and the recursive `Tree.path`
becomes a fuel-indexed function returning `none` when the recursion
does not terminate within the given depth.
-/

namespace DependencyTree

/-- The marking placed on nodes in the scope of a downward entailing operator
(Python constant `DOWNWARD = "NPOL"`). -/
def DOWNWARD : String := "NPOL"

/-- No marking for upward entailing environments (Python `UPWARD = ""`). -/
def UPWARD : String := ""

/-- The marking for nodes in a non-veridical environment
(Python `NONVERIDICAL = "_NONVER"`). -/
def NONVERIDICAL : String := "_NONVER"

/-- No marking for veridical environments (Python `VERIDICAL = ""`). -/
def VERIDICAL : String := ""

/-- Python tuple `DOWNWARD_MORPHEMES`. -/
def DOWNWARD_MORPHEMES : List String :=
  ["not", "never", "nothing", "no", "n't", "nowhere", "none", "few", "seldom", "rarely"]

/-- Python tuple `NONVERIDICAL_MORPHEMES`. -/
def NONVERIDICAL_MORPHEMES : List String :=
  ["accept", "accepts", "accepted", "accepting",
   "advertise", "advertises", "advertised", "advertising",
   "advocate", "advocates", "advocated", "advocating",
   "affirm", "affirms", "affirmed", "affirming",
   "agree", "agrees", "agreed", "agreeing",
   "allege", "alleges", "alleged", "alleging",
   "allow", "allows", "allowed", "allowing",
   "annoy", "annoys", "annoyed", "annoying",
   "appear", "appears", "appeared", "appearing",
   "argue", "argues", "argued", "arguing",
   "ask", "asks", "asked", "asking",
   "assert", "asserts", "asserted", "asserting",
   "assume", "assumes", "assumed", "assuming",
   "assure", "assures", "assured", "assuring",
   "believe", "believes", "believed", "believing",
   "boast", "boasts", "boasted", "boasting",
   "calculate", "calculates", "calculated", "calculating",
   "claim", "claims", "claimed", "claiming",
   "comment", "comments", "commented", "commenting",
   "concern", "concerns", "concerned", "concerning",
   "confided", "confides", "confided", "confiding",
   "conjecture", "conjectures", "conjectured", "conjecturing",
   "consider", "considers", "considered", "considering",
   "contemplate", "contemplates", "contemplated", "contemplating",
   "decided", "decides", "decided", "deciding",
   "declare", "declares", "declared", "declaring",
   "deduce", "deduces", "deduced", "deducing",
   "deem", "deems", "deemed", "deeming",
   "demand", "demands", "demanded", "demanding",
   "desire", "desires", "desired", "desiring",
   "determine", "determines", "determined", "determining",
   "doubt", "doubts", "doubted", "doubting",
   "exclaim", "exclaims", "exclaimed", "exclaiming",
   "expected", "expects", "expected", "expecting",
   "fantasize", "fantasizes", "fantasized", "fantasizing",
   "fear", "fears", "feared", "fearing",
   "feel", "feels", "felt", "feeling",
   "grumble", "grumbles", "grumbled", "grumbling",
   "guess", "guesses", "guessed", "guessing",
   "hear", "hears", "heard", "hearing",
   "hope", "hopes", "hoped", "hoping",
   "imply", "implies", "implied", "implying",
   "imagine", "imagines", "imagined", "imagining",
   "infer", "infers", "inferred", "inferring",
   "insinuate", "insinuates", "insinuated", "insinuating",
   "maintain", "maintains", "maintained", "maintaining",
   "mumble", "mumbles", "mumbled", "mumbling",
   "opine", "opines", "opined", "opining",
   "pledge", "pledges", "pledged", "pledging",
   "pray", "prays", "prayed", "praying",
   "predict", "predicts", "predicted", "predicting",
   "presume", "presumes", "presumed", "presuming",
   "pretend", "pretends", "pretended", "pretending",
   "proclaim", "proclaims", "proclaimed", "proclaiming",
   "pronounce", "pronounces", "pronounced", "pronouncing",
   "propose", "proposes", "proposed", "proposing",
   "question", "questions", "questioned", "questioning",
   "reckon", "reckons", "reckoned", "reckoning",
   "recommend", "recommends", "recommended", "recommending",
   "report", "reports", "reported", "reporting",
   "respond", "responds", "responded", "responding",
   "say", "says", "said", "saying",
   "seem", "seems", "seemed", "seeming",
   "shout", "shouts", "shouted", "shouting",
   "suspect", "suspects", "suspected", "suspecting",
   "think", "thinks", "thought", "thinking",
   "tell", "tells", "told", "telling",
   "want", "wants", "wanted", "wanting",
   "wish", "wishes", "wished", "wishing",
   "wonder", "wonders", "wondered", "wondering"]

/-- Python tuple `NONVERIDICAL_RELATIONS`. -/
def NONVERIDICAL_RELATIONS : List String := ["xcomp", "ccomp", "pcomp"]

/-- Python tuple `NONSCOPE_RELATIONS`: relations that do not propagate scope. -/
def NONSCOPE_RELATIONS : List String :=
  ["dep", "conj_but", "conj_and", "parataxis", "advcl", "rcmod"]

/-- A dependency-graph node.  Python `Node.__eq__` compares only `word` and
`index`, and `Tree.get_nodes` deduplicates by the string `word-index`, so a
node is faithfully represented by this pair; the mutable `scope_markings`
dictionary lives in `MarkState` instead. -/
structure Node where
  word : String
  index : Nat
deriving DecidableEq, Repr

/-- A labeled edge `from_node -> to_node` (Python class `Edge`). -/
structure Edge where
  rel : String
  from_node : Node
  to_node : Node
deriving DecidableEq, Repr

/-- Python `Edge.start`: the smaller endpoint index. -/
def Edge.start (e : Edge) : Nat := min e.from_node.index e.to_node.index

/-- Python `Edge.finish`: the larger endpoint index. -/
def Edge.finish (e : Edge) : Nat := max e.from_node.index e.to_node.index

/-- A dependency tree is its list of edges (Python `Tree`); the node list is
derived by `Tree.nodes`. -/
structure Tree where
  edges : List Edge
deriving DecidableEq, Repr

/-- Python `Tree.get_nodes`: the deduplicated endpoints of all edges, sorted
ascending by `index`. -/
def get_nodes (edges : List Edge) : List Node :=
  let endpoints := edges.foldr (fun e acc => e.from_node :: e.to_node :: acc) []
  List.insertionSort (fun a b => a.index ≤ b.index) endpoints.dedup

/-- The derived node list of a tree. -/
def Tree.nodes (t : Tree) : List Node := get_nodes t.edges

/-- Python `Tree.get_edge`: the first edge in input order from `x` to `y`,
if any. -/
def Tree.get_edge (t : Tree) (x y : Node) : Option Edge :=
  t.edges.find? (fun e => e.from_node == x && e.to_node == y)

/-- Python `Tree.daughters`: the nodes `n` (in node-list order) with an edge
`x -> n` whose relation is not in `blockers`. -/
def Tree.daughters (t : Tree) (x : Node) (blockers : List String := NONSCOPE_RELATIONS) :
    List Node :=
  t.nodes.filter (fun n =>
    match t.get_edge x n with
    | some e => !(blockers.contains e.rel)
    | none => false)

/-- The sequential or-loop of Python `Tree.path`: try `rec` on each daughter,
short-circuiting on `True`; `none` models a diverging recursive call. -/
def pathAnyAux (rec : Node → Option Bool) : List Node → Option Bool
  | [] => some false
  | d :: ds =>
    match rec d with
    | none => none
    | some true => some true
    | some false => pathAnyAux rec ds

/-- Python `Tree.path`, indexed by recursion depth.  `none` means the call
does not return within `fuel` nested calls (the Python function would still
be recursing).  Note that, as in the source, the `daughters` call uses
`NONSCOPE_RELATIONS` and not the `blockers` argument, which is only passed
on to the recursive calls. -/
def pathFuel (t : Tree) : Nat → Node → Node → List String → Option Bool
  | 0, _, _, _ => none
  | fuel + 1, x, y, blockers =>
    let daughts := t.daughters x NONSCOPE_RELATIONS
    if y ∈ daughts then some true
    else pathAnyAux (fun d => pathFuel t fuel d y blockers) daughts

/-- The two scope markings of a node: the values of the Python dictionary
`Node.scope_markings` at keys `"monotonicity"` and `"veridicality"`. -/
structure Markings where
  monotonicity : String
  veridicality : String
deriving DecidableEq, Repr

/-- The lexical markings computed in Python `Node.__init__`. -/
def initMarkings (w : String) : Markings :=
  { monotonicity := if w ∈ DOWNWARD_MORPHEMES then DOWNWARD else UPWARD,
    veridicality := if w ∈ NONVERIDICAL_MORPHEMES then NONVERIDICAL else VERIDICAL }

/-- The marking state: the markings of every node.  All reads and writes in
the Python program go through the canonical node objects of `Tree.nodes`,
which are exactly the (word, index) pairs. -/
abbrev MarkState := Node → Markings

/-- The state in which every node carries its lexical markings, as after
`Tree.__init__`. -/
def initState : MarkState := fun n => initMarkings n.word

/-- Python `Node.update_marking`.  `UPWARD` and `DOWNWARD` set the
monotonicity marking, otherwise `VERIDICAL` and `NONVERIDICAL` set the
veridicality marking; any other value falls through both branches and the
markings are unchanged. -/
def update_marking (m : Markings) (marking : String) : Markings :=
  if marking = UPWARD ∨ marking = DOWNWARD then
    { m with monotonicity := marking }
  else if marking = VERIDICAL ∨ marking = NONVERIDICAL then
    { m with veridicality := marking }
  else m

/-- Apply `update_marking` to one node of the state. -/
def updState (s : MarkState) (n : Node) (marking : String) : MarkState :=
  fun v => if v = n then update_marking (s n) marking else s v

/-- Python `Tree.downward_spread`: the trigger list for the monotonicity
pass, read from the current state `s`. -/
def downward_spread (t : Tree) (s : MarkState) (n : Node) : List Node :=
  (if (s n).monotonicity = DOWNWARD then [n] else []) ++
  (t.daughters n).flatMap (fun daught =>
    if (s daught).monotonicity = DOWNWARD then [daught]
    else
      (t.daughters daught).flatMap (fun grand_daught =>
        match t.get_edge daught grand_daught with
        | some e =>
          if (e.rel = "det" ∨ e.rel = "amod") ∧
              (s grand_daught).monotonicity = DOWNWARD then [daught] else []
        | none => []))

/-- Python `Tree.nonveridical_spread`: the trigger list for the veridicality
pass, read from the current state `s`. -/
def nonveridical_spread (t : Tree) (s : MarkState) (n : Node) : List Node :=
  (if (s n).veridicality = NONVERIDICAL then [n] else []) ++
  (t.daughters n).flatMap (fun daught =>
    if (s daught).veridicality = NONVERIDICAL then
      match t.get_edge n daught with
      | some e => if e.rel = "xcomp" ∨ e.rel = "ccomp" ∨ e.rel = "pcomp" then [daught] else []
      | none => []
    else [])

/-- The innermost loop of `Tree.scope_marking`: for every node `n2` of the
tree, mark `n2` when `path(d_prime, n2)` holds and `n2` is to the right of
the trigger.  The `path` call is evaluated before the index test, as in the
Python conjunction, so a diverging `path` call makes the whole loop
diverge (`none`). -/
def n2_loop (t : Tree) (marking : String) (fuel : Nat) (dIdx : Nat) (d' : Node) :
    List Node → MarkState → Option MarkState
  | [], s => some s
  | n2 :: rest, s =>
    match pathFuel t fuel d' n2 NONSCOPE_RELATIONS with
    | none => none
    | some b =>
      let s' := if b = true ∧ dIdx < n2.index then updState s n2 marking else s
      n2_loop t marking fuel dIdx d' rest s'

/-- The middle loop of `Tree.scope_marking`: over the unblocked daughters of
the mother, marking the ones strictly to the right of the trigger and then
running the `n2` loop from them. -/
def sister_loop (t : Tree) (marking : String) (fuel : Nat) (dght : Node) :
    List Node → MarkState → Option MarkState
  | [], s => some s
  | d' :: rest, s =>
    if dght ≠ d' ∧ dght.index < d'.index then
      match n2_loop t marking fuel dght.index d' t.nodes (updState s d' marking) with
      | none => none
      | some s2 => sister_loop t marking fuel dght rest s2
    else sister_loop t marking fuel dght rest s

/-- The body of `Tree.scope_marking` for one trigger `dght` under mother
`mom`: mark the mother, then run the sister loop. -/
def processTrigger (t : Tree) (marking : String) (fuel : Nat) (mom dght : Node)
    (s : MarkState) : Option MarkState :=
  sister_loop t marking fuel dght (t.daughters mom NONSCOPE_RELATIONS) (updState s mom marking)

/-- The loop of `Tree.scope_marking` over the triggers returned by the
spread function for one mother. -/
def trigger_loop (t : Tree) (marking : String) (fuel : Nat) (mom : Node) :
    List Node → MarkState → Option MarkState
  | [], s => some s
  | dght :: rest, s =>
    match processTrigger t marking fuel mom dght s with
    | none => none
    | some s2 => trigger_loop t marking fuel mom rest s2

/-- The outer loop of `Tree.scope_marking` over the mothers; the trigger
list is computed from the state current when the mother is visited. -/
def mom_loop (t : Tree) (marking : String) (fuel : Nat)
    (spread : Tree → MarkState → Node → List Node) :
    List Node → MarkState → Option MarkState
  | [], s => some s
  | mom :: rest, s =>
    match trigger_loop t marking fuel mom (spread t s mom) s with
    | none => none
    | some s2 => mom_loop t marking fuel spread rest s2

/-- Python `Tree.scope_marking`, fuel-indexed through the `path` calls. -/
def scope_markingF (t : Tree) (marking : String)
    (spread : Tree → MarkState → Node → List Node) (fuel : Nat) (s : MarkState) :
    Option MarkState :=
  mom_loop t marking fuel spread t.nodes s

/-- Python `Tree.polarity_marking`. -/
def polarity_markingF (t : Tree) (fuel : Nat) (s : MarkState) : Option MarkState :=
  scope_markingF t DOWNWARD downward_spread fuel s

/-- Python `Tree.veridicality_marking`. -/
def veridicality_markingF (t : Tree) (fuel : Nat) (s : MarkState) : Option MarkState :=
  scope_markingF t NONVERIDICAL nonveridical_spread fuel s

/-- Python `Tree.words`: the words in node-list order. -/
def Tree.words (t : Tree) : List String := t.nodes.map (fun n => n.word)

/-- Python `Tree.words_with_scope_markings`: each word concatenated with its
marking values sorted by dictionary key (`"monotonicity"` before
`"veridicality"`). -/
def words_with_scope_markings (t : Tree) (s : MarkState) : List String :=
  t.nodes.map (fun n => n.word ++ (s n).monotonicity ++ (s n).veridicality)

/-- ASCII `\w` of the Python 2 `re` module. -/
def isWordChar (c : Char) : Bool := c.isAlphanum || c = '_'

/-- ASCII `\s` of the Python 2 `re` module. -/
def isSpaceChar (c : Char) : Bool :=
  c = ' ' || c = '\t' || c = '\n' || c = '\r' || c = '\x0b' || c = '\x0c'

/-- Matcher for the suffix `,\s+([^\)]+)\)` of the edge pattern: a comma, at
least one whitespace character, then the target group up to the closing
parenthesis.  The greedy `\s+` backtracks one character when the character
class group would otherwise be empty. -/
def matchTail (cs : List Char) : Option (String × List Char) :=
  match cs with
  | ',' :: cs2 =>
    if (cs2.takeWhile isSpaceChar).isEmpty then none
    else
      match (cs2.dropWhile isSpaceChar).dropWhile (fun c => c != ')') with
      | ')' :: cs5 =>
        if ((cs2.dropWhile isSpaceChar).takeWhile (fun c => c != ')')).isEmpty then
          if 2 ≤ (cs2.takeWhile isSpaceChar).length then
            some (String.mk [(cs2.takeWhile isSpaceChar).getLastD ' '], cs5)
          else none
        else some (String.mk ((cs2.dropWhile isSpaceChar).takeWhile (fun c => c != ')')), cs5)
      | _ => none
  | _ => none

/-- The non-greedy `(.+?)` group of the edge pattern: find the shortest
nonempty prefix of the input after which `matchTail` succeeds.  `acc` holds
the reversed characters consumed so far. -/
def splitFrom : List Char → List Char → Option (String × String × List Char)
  | _, [] => none
  | acc, c :: cs =>
    match matchTail cs with
    | some (t, rest) => some (String.mk (c :: acc).reverse, t, rest)
    | none => splitFrom (c :: acc) cs

/-- One attempt to match the full edge pattern `(\w+)\((.+?),\s+([^\)]+)\)`
at the start of `cs`; on success returns the three groups and the rest of
the input. -/
def matchRel (cs : List Char) : Option ((String × String × String) × List Char) :=
  if (cs.takeWhile isWordChar).isEmpty then none
  else
    match cs.dropWhile isWordChar with
    | '(' :: rest2 =>
      match splitFrom [] rest2 with
      | some (f, t, r) => some ((String.mk (cs.takeWhile isWordChar), f, t), r)
      | none => none
    | _ => none

theorem matchTail_length {cs r : List Char} {t : String} (h : matchTail cs = some (t, r)) :
    r.length < cs.length := by
  rw [matchTail.eq_def] at h
  split at h
  · rename_i cs2
    split at h
    · exact absurd h (by simp)
    · split at h
      · rename_i cs5 heq
        have h5 : cs5.length < cs2.length := by
          have h1 : (')' :: cs5).length ≤ (cs2.dropWhile isSpaceChar).length := by
            rw [← heq]
            exact (List.dropWhile_sublist _).length_le
          have h2 : (cs2.dropWhile isSpaceChar).length ≤ cs2.length :=
            (List.dropWhile_sublist _).length_le
          simp only [List.length_cons] at h1
          omega
        split at h
        · split at h
          · cases h
            simp only [List.length_cons]
            omega
          · exact absurd h (by simp)
        · cases h
          simp only [List.length_cons]
          omega
      · exact absurd h (by simp)
  · exact absurd h (by simp)

theorem splitFrom_length {acc cs r : List Char} {f t : String}
    (h : splitFrom acc cs = some (f, t, r)) : r.length < cs.length := by
  induction cs generalizing acc with
  | nil => simp [splitFrom] at h
  | cons c cs ih =>
    simp only [splitFrom] at h
    cases hmt : matchTail cs with
    | some pr =>
      rw [hmt] at h
      cases pr with
      | mk t' rest =>
        cases h
        have := matchTail_length hmt
        simp only [List.length_cons]
        omega
    | none =>
      rw [hmt] at h
      have := ih h
      simp only [List.length_cons]
      omega

theorem matchRel_length {cs r : List Char} {tr : String × String × String}
    (h : matchRel cs = some (tr, r)) : r.length < cs.length := by
  rw [matchRel.eq_def] at h
  split at h
  · exact absurd h (by simp)
  · split at h
    · rename_i rest2 heq
      have hlen : (('(') :: rest2).length ≤ cs.length := by
        rw [← heq]
        exact (List.dropWhile_sublist _).length_le
      split at h
      · rename_i f t r' hsf
        cases h
        have h1 := splitFrom_length hsf
        simp only [List.length_cons] at hlen
        omega
      · exact absurd h (by simp)
    · exact absurd h (by simp)

/-- The scanning loop of Python `re.findall` for the edge pattern: scan left
to right, collecting leftmost non-overlapping matches.  The fuel only has to
dominate the input length, because every step consumes at least one
character (`findallFuel_congr` below). -/
def findallFuel : Nat → List Char → List (String × String × String)
  | 0, _ => []
  | _, [] => []
  | fuel + 1, c :: cs' =>
    match matchRel (c :: cs') with
    | some (tr, rest) => tr :: findallFuel fuel rest
    | none => findallFuel fuel cs'

/-- Python `re.findall` for the edge pattern. -/
def findall (cs : List Char) : List (String × String × String) :=
  findallFuel cs.length cs

theorem findallFuel_congr (n : Nat) :
    ∀ cs fuel fuel', cs.length ≤ n → cs.length ≤ fuel → cs.length ≤ fuel' →
      findallFuel fuel cs = findallFuel fuel' cs := by
  induction n with
  | zero =>
    intro cs fuel fuel' hn _ _
    match cs with
    | [] =>
      match fuel, fuel' with
      | 0, 0 => rfl
      | 0, _ + 1 => rfl
      | _ + 1, 0 => rfl
      | _ + 1, _ + 1 => rfl
    | c :: cs' => simp at hn
  | succ n ih =>
    intro cs fuel fuel' hn hf hf'
    match cs with
    | [] =>
      match fuel, fuel' with
      | 0, 0 => rfl
      | 0, _ + 1 => rfl
      | _ + 1, 0 => rfl
      | _ + 1, _ + 1 => rfl
    | c :: cs' =>
      simp only [List.length_cons] at hn hf hf'
      match fuel, fuel' with
      | f + 1, f' + 1 =>
        show (match matchRel (c :: cs') with
          | some (tr, rest) => tr :: findallFuel f rest
          | none => findallFuel f cs') =
          (match matchRel (c :: cs') with
          | some (tr, rest) => tr :: findallFuel f' rest
          | none => findallFuel f' cs')
        cases hm : matchRel (c :: cs') with
        | some pr =>
          cases pr with
          | mk tr rest =>
            have hlen : rest.length < cs'.length + 1 := by
              have := matchRel_length hm
              simpa using this
            dsimp only
            rw [ih rest f f' (by omega) (by omega) (by omega)]
        | none =>
          dsimp only
          exact ih cs' f f' (by omega) (by omega) (by omega)

/-- Python `str.rsplit("-", 1)` as used in `Node.__init__`: split at the last
hyphen; `none` when there is no hyphen (where the Python tuple unpacking
raises). -/
def rsplitDash (cs : List Char) : Option (List Char × List Char) :=
  let r := cs.reverse
  match r.dropWhile (fun c => c != '-') with
  | '-' :: restw => some (restw.reverse, (r.takeWhile (fun c => c != '-')).reverse)
  | _ => none

/-- Python `int()` on a string that cannot contain a hyphen: optional
surrounding whitespace, an optional plus sign, then one or more digits;
`none` where Python raises `ValueError`. -/
def parseIntPy (cs : List Char) : Option Nat :=
  let t1 := cs.dropWhile isSpaceChar
  let t2 := (t1.reverse.dropWhile isSpaceChar).reverse
  let t3 := match t2 with | '+' :: r => r | _ => t2
  if t3.isEmpty || !(t3.all (fun c => c.isDigit)) then none
  else some (t3.foldl (fun a c => a * 10 + (c.toNat - 48)) 0)

/-- The index computation of Python `Node.__init__`: an index carrying a
copy marker (an apostrophe) is right-stripped of apostrophes and offset by
5000; otherwise the digits are read directly. -/
def parseIndexStr (cs : List Char) : Option Nat :=
  if cs.contains '\'' then
    (parseIntPy ((cs.reverse.dropWhile (fun c => c == '\'')).reverse)).map (fun n => n + 5000)
  else parseIntPy cs

/-- Python `Node.__init__` from a token string. -/
def parseNode (s : String) : Option Node := do
  let (w, i) ← rsplitDash s.data
  let n ← parseIndexStr i
  pure { word := String.mk w, index := n }

/-- Python `Edge.__init__` from one parsed triple. -/
def parseEdge (tr : String × String × String) : Option Edge := do
  let f ← parseNode tr.2.1
  let t ← parseNode tr.2.2
  pure { rel := tr.1, from_node := f, to_node := t }

/-- Python `Tree.__init__`: extract the relation triples with the edge
pattern and build the edge list; `none` when some token is malformed (where
the Python constructor raises). -/
def Tree.ofString (s : String) : Option Tree := do
  let es ← (findall s.data).mapM parseEdge
  pure { edges := es }

/-- Reachability by one or more daughters steps none of which crosses a
relation in `NONSCOPE_RELATIONS`: these are exactly the paths that the
Python `Tree.path` search explores, since its `daughters` queries always
use `NONSCOPE_RELATIONS`. -/
inductive Reach (t : Tree) : Node → Node → Prop
  | step {x y : Node} : y ∈ t.daughters x NONSCOPE_RELATIONS → Reach t x y
  | trans {x d y : Node} : d ∈ t.daughters x NONSCOPE_RELATIONS → Reach t d y → Reach t x y

/-- The nodes that the sister loop over the daughter list `ds` marks for
trigger `dght`: the daughters in `ds` distinct from the trigger and strictly
to its right, and every node of the tree reachable (per `pathFuel` at the
given fuel) from such a daughter that is strictly to the right of the
trigger. -/
def SisterMarks (t : Tree) (fuel : Nat) (dght : Node) (ds : List Node) (v : Node) : Prop :=
  (v ∈ ds ∧ dght ≠ v ∧ dght.index < v.index) ∨
  (∃ d', d' ∈ ds ∧ dght ≠ d' ∧ dght.index < d'.index ∧
    v ∈ t.nodes ∧ pathFuel t fuel d' v NONSCOPE_RELATIONS = some true ∧ dght.index < v.index)

/-- The nodes that processing one trigger `dght` found under mother `mom`
marks: the mother itself; every unblocked daughter of the mother distinct
from the trigger and strictly to its right; and every node of the tree
reachable (per `pathFuel` at the given fuel) from such a daughter that is
strictly to the right of the trigger. -/
def TriggerMarks (t : Tree) (fuel : Nat) (mom dght v : Node) : Prop :=
  v = mom ∨ SisterMarks t fuel dght (t.daughters mom NONSCOPE_RELATIONS) v

/-- The modeled `Tree.path` call diverges: no recursion depth suffices. -/
def PathDiverges (t : Tree) (x y : Node) (blockers : List String) : Prop :=
  ∀ fuel, pathFuel t fuel x y blockers = none

/-- Scenario 3 input of the specification (claim C8). -/
def sC8 : String := "nsubj(predicted-2, i-1), complm(outstanding-7, that-3), nsubj(outstanding-7, it-4), aux(outstanding-7, would-5), cop(outstanding-7, be-6), ccomp(predicted-2, outstanding-7)"

/-- The tree built from the Scenario 3 input. -/
def tC8 : Tree := (Tree.ofString sC8).getD { edges := [] }

/-- An input with a single unblocked edge labeled `nsubj`. -/
def sC2 : String := "nsubj(a-1, b-2)"

/-- The tree of `sC2`. -/
def tC2 : Tree := (Tree.ofString sC2).getD { edges := [] }

/-- An input whose non-blocked edges contain a self-loop. -/
def sCyc : String := "nsubj(a-1, a-1)"

/-- The tree of `sCyc`. -/
def tCyc : Tree := (Tree.ofString sCyc).getD { edges := [] }

/-- An input on which a second run of the polarity pass marks strictly more
nodes than the first: `x-4` is marked via mother `a-2` only after mother
`m-1` has already been visited, so `m-1` becomes a fresh mother of a
downward trigger in the second run. -/
def sC5 : String := "nsubj(m-1, x-4), neg(a-2, not-3), dobj(a-2, x-4)"

/-- The tree of `sC5`. -/
def tC5 : Tree := (Tree.ofString sC5).getD { edges := [] }

/-- An input where the mother `a-2` of a downward trigger is reachable from
itself only through blocked `conj_and` edges. -/
def sC6 : String := "neg(a-2, not-1), conj_and(a-2, z-3), conj_and(z-3, a-2)"

/-- The tree of `sC6`. -/
def tC6 : Tree := (Tree.ofString sC6).getD { edges := [] }

/-- An input where the mother of a downward trigger is its own daughter
through a self-loop, so that the mother is also a sister of the trigger and
sits to the trigger's left. -/
def sC1c : String := "nsubj(a-2, a-2), neg(a-2, not-3)"

/-- The tree of `sC1c`. -/
def tC1c : Tree := (Tree.ofString sC1c).getD { edges := [] }

/-- A small negation input used to instantiate per-trigger marking. -/
def sC1w : String := "neg(good-2, not-1), advmod(good-2, very-3)"

/-- The tree of `sC1w`. -/
def tC1w : Tree := (Tree.ofString sC1w).getD { edges := [] }

/-- An input with two parallel edges between the same pair of nodes,
carrying different relation labels. -/
def sC10 : String := "nsubj(a-2, b-1), conj_and(a-2, b-1)"

/-- The tree of `sC10`. -/
def tC10 : Tree := (Tree.ofString sC10).getD { edges := [] }

/-- A single-edge acyclic input. -/
def sAcy : String := "nsubj(a-1, b-2)"

/-- The tree of `sAcy`. -/
def tAcy : Tree := (Tree.ofString sAcy).getD { edges := [] }

instance : IsTotal Node (fun a b => a.index ≤ b.index) :=
  ⟨fun a b => Nat.le_total a.index b.index⟩

instance : IsTrans Node (fun a b => a.index ≤ b.index) :=
  ⟨fun _ _ _ hab hbc => Nat.le_trans hab hbc⟩

theorem get_nodes_nodup (edges : List Edge) : (get_nodes edges).Nodup := by
  unfold get_nodes
  exact ((List.perm_insertionSort _ _).symm).nodup (List.nodup_dedup _)

theorem get_nodes_sorted (edges : List Edge) :
    (get_nodes edges).Pairwise (fun a b => a.index ≤ b.index) := by
  unfold get_nodes
  exact List.sorted_insertionSort _ _

theorem mem_get_nodes_of_mem_edges {edges : List Edge} {e : Edge} (h : e ∈ edges) :
    e.from_node ∈ get_nodes edges ∧ e.to_node ∈ get_nodes edges := by
  unfold get_nodes
  rw [(List.perm_insertionSort _ _).mem_iff, (List.perm_insertionSort _ _).mem_iff,
    List.mem_dedup, List.mem_dedup]
  induction edges with
  | nil => cases h
  | cons e2 rest ih =>
    rcases List.mem_cons.mp h with h1 | h1
    · subst h1
      exact ⟨List.mem_cons_self _ _, List.mem_cons.mpr (Or.inr (List.mem_cons_self _ _))⟩
    · have := ih h1
      exact ⟨List.mem_cons.mpr (Or.inr (List.mem_cons.mpr (Or.inr this.1))),
        List.mem_cons.mpr (Or.inr (List.mem_cons.mpr (Or.inr this.2)))⟩

theorem daughters_sublist_nodes (t : Tree) (x : Node) (blockers : List String) :
    List.Sublist (t.daughters x blockers) t.nodes :=
  List.filter_sublist _

theorem mem_nodes_of_mem_daughters {t : Tree} {x y : Node} {blockers : List String}
    (h : y ∈ t.daughters x blockers) : y ∈ t.nodes :=
  (daughters_sublist_nodes t x blockers).mem h

theorem mem_daughters_iff {t : Tree} {x y : Node} {blockers : List String} :
    y ∈ t.daughters x blockers ↔
      y ∈ t.nodes ∧ ∃ e, t.get_edge x y = some e ∧ e.rel ∉ blockers := by
  unfold Tree.daughters
  rw [List.mem_filter]
  constructor
  · rintro ⟨hmem, hp⟩
    refine ⟨hmem, ?_⟩
    cases hge : t.get_edge x y with
    | none => rw [hge] at hp; cases hp
    | some e =>
      rw [hge] at hp
      simp at hp
      exact ⟨e, rfl, hp⟩
  · rintro ⟨hmem, e, hge, hrel⟩
    refine ⟨hmem, ?_⟩
    rw [hge]
    simp [hrel]

theorem find?_append_first {α : Type} {p : α → Bool} {pre post : List α} {e : α}
    (hpre : ∀ e2, e2 ∈ pre → ¬ p e2 = true) (he : p e = true) :
    (pre ++ e :: post).find? p = some e := by
  induction pre with
  | nil => simpa using List.find?_cons_of_pos _ he
  | cons e2 rest ih =>
    rw [List.cons_append, List.find?_cons_of_neg _ (hpre e2 (List.mem_cons_self _ _))]
    exact ih (fun e3 h3 => hpre e3 (List.mem_cons_of_mem _ h3))

theorem get_edge_eq_first {t : Tree} {x y : Node} {pre post : List Edge} {e : Edge}
    (hsplit : t.edges = pre ++ e :: post)
    (hpre : ∀ e2, e2 ∈ pre → ¬(e2.from_node = x ∧ e2.to_node = y))
    (hf : e.from_node = x) (ht : e.to_node = y) :
    t.get_edge x y = some e := by
  unfold Tree.get_edge
  rw [hsplit]
  refine find?_append_first (fun e2 h2 hb => ?_) (by simp [hf, ht])
  rw [Bool.and_eq_true, beq_iff_eq, beq_iff_eq] at hb
  exact hpre e2 h2 hb

theorem pathFuel_blockers_irrelevant (t : Tree) :
    ∀ (fuel : Nat) (x y : Node) (b b' : List String),
      pathFuel t fuel x y b = pathFuel t fuel x y b' := by
  intro fuel
  induction fuel with
  | zero =>
    intro x y b b'
    rfl
  | succ f ih =>
    intro x y b b'
    simp only [pathFuel]
    by_cases hmem : y ∈ t.daughters x NONSCOPE_RELATIONS
    · rw [if_pos hmem, if_pos hmem]
    · rw [if_neg hmem, if_neg hmem]
      have hany : ∀ ds, pathAnyAux (fun d => pathFuel t f d y b) ds =
          pathAnyAux (fun d => pathFuel t f d y b') ds := by
        intro ds
        induction ds with
        | nil => rfl
        | cons d rest ihds =>
          simp only [pathAnyAux]
          rw [ih d y b b']
          cases pathFuel t f d y b' with
          | none => rfl
          | some bb =>
            cases bb with
            | true => rfl
            | false =>
              dsimp only
              exact ihds
      exact hany _

theorem update_marking_idem (ms : Markings) (v : String) :
    update_marking (update_marking ms v) v = update_marking ms v := by
  unfold update_marking
  by_cases h1 : v = UPWARD ∨ v = DOWNWARD
  · rw [if_pos h1, if_pos h1]
  · by_cases h2 : v = VERIDICAL ∨ v = NONVERIDICAL
    · rw [if_neg h1, if_pos h2, if_neg h1, if_pos h2]
    · rw [if_neg h1, if_neg h2, if_neg h1, if_neg h2]

theorem n2_loop_char {t : Tree} {marking : String} {fuel dIdx : Nat} {d' : Node} :
    ∀ (ns : List Node) (s s' : MarkState),
      n2_loop t marking fuel dIdx d' ns s = some s' →
      ∀ v, ((v ∈ ns ∧ pathFuel t fuel d' v NONSCOPE_RELATIONS = some true ∧ dIdx < v.index) →
              s' v = update_marking (s v) marking) ∧
           (¬(v ∈ ns ∧ pathFuel t fuel d' v NONSCOPE_RELATIONS = some true ∧ dIdx < v.index) →
              s' v = s v) := by
  intro ns
  induction ns with
  | nil =>
    intro s s' h v
    cases h
    exact ⟨fun hc => absurd hc.1 (List.not_mem_nil v), fun _ => rfl⟩
  | cons n2 rest ih =>
    intro s s' h
    simp only [n2_loop] at h
    cases hpf : pathFuel t fuel d' n2 NONSCOPE_RELATIONS with
    | none => rw [hpf] at h; cases h
    | some b =>
      rw [hpf] at h
      dsimp only at h
      by_cases hcond : b = true ∧ dIdx < n2.index
      · rw [if_pos hcond] at h
        have hrest := ih (updState s n2 marking) s' h
        intro v
        constructor
        · rintro ⟨hv, hpt, hidx⟩
          by_cases hr : v ∈ rest ∧
              pathFuel t fuel d' v NONSCOPE_RELATIONS = some true ∧ dIdx < v.index
          · rw [(hrest v).1 hr]
            unfold updState
            by_cases hvn : v = n2
            · rw [if_pos hvn, hvn, update_marking_idem]
            · rw [if_neg hvn]
          · rw [(hrest v).2 hr]
            have hvn : v = n2 := by
              rcases List.mem_cons.mp hv with h1 | h1
              · exact h1
              · exact absurd ⟨h1, hpt, hidx⟩ hr
            unfold updState
            rw [if_pos hvn, hvn]
        · intro hnc
          have hr : ¬(v ∈ rest ∧
              pathFuel t fuel d' v NONSCOPE_RELATIONS = some true ∧ dIdx < v.index) :=
            fun hc => hnc ⟨List.mem_cons_of_mem _ hc.1, hc.2⟩
          rw [(hrest v).2 hr]
          unfold updState
          by_cases hvn : v = n2
          · exfalso
            apply hnc
            refine ⟨List.mem_cons.mpr (Or.inl hvn), ?_, ?_⟩
            · rw [hvn, hpf, hcond.1]
            · rw [hvn]
              exact hcond.2
          · rw [if_neg hvn]
      · rw [if_neg hcond] at h
        have hrest := ih s s' h
        intro v
        constructor
        · rintro ⟨hv, hpt, hidx⟩
          rcases List.mem_cons.mp hv with h1 | h1
          · exfalso
            apply hcond
            subst h1
            rw [hpf] at hpt
            exact ⟨Option.some.inj hpt, hidx⟩
          · exact (hrest v).1 ⟨h1, hpt, hidx⟩
        · intro hnc
          exact (hrest v).2 (fun hc => hnc ⟨List.mem_cons_of_mem _ hc.1, hc.2⟩)

theorem sister_loop_char {t : Tree} {marking : String} {fuel : Nat} {dght : Node} :
    ∀ (ds : List Node) (s s' : MarkState),
      sister_loop t marking fuel dght ds s = some s' →
      ∀ v, (SisterMarks t fuel dght ds v → s' v = update_marking (s v) marking) ∧
           (¬ SisterMarks t fuel dght ds v → s' v = s v) := by
  intro ds
  induction ds with
  | nil =>
    intro s s' h v
    cases h
    refine ⟨fun hc => ?_, fun _ => rfl⟩
    rcases hc with ⟨hm, _⟩ | ⟨d2, hm, _⟩
    · exact absurd hm (List.not_mem_nil v)
    · exact absurd hm (List.not_mem_nil d2)
  | cons d' rest ih =>
    intro s s' h
    simp only [sister_loop] at h
    by_cases hq : dght ≠ d' ∧ dght.index < d'.index
    · rw [if_pos hq] at h
      cases hn2 : n2_loop t marking fuel dght.index d' t.nodes (updState s d' marking) with
      | none => rw [hn2] at h; cases h
      | some s2 =>
        rw [hn2] at h
        dsimp only at h
        have h1 := n2_loop_char t.nodes (updState s d' marking) s2 hn2
        have h2 := ih s2 s' h
        -- the state after the head daughter, pointwise
        have hs2 : ∀ v, ((v = d' ∨ (v ∈ t.nodes ∧
              pathFuel t fuel d' v NONSCOPE_RELATIONS = some true ∧ dght.index < v.index)) →
                s2 v = update_marking (s v) marking) ∧
            (¬(v = d' ∨ (v ∈ t.nodes ∧
              pathFuel t fuel d' v NONSCOPE_RELATIONS = some true ∧ dght.index < v.index)) →
                s2 v = s v) := by
          intro v
          constructor
          · intro hcv
            by_cases hn2c : v ∈ t.nodes ∧
                pathFuel t fuel d' v NONSCOPE_RELATIONS = some true ∧ dght.index < v.index
            · rw [(h1 v).1 hn2c]
              unfold updState
              by_cases hvd : v = d'
              · rw [if_pos hvd, hvd, update_marking_idem]
              · rw [if_neg hvd]
            · have hvd : v = d' := hcv.resolve_right hn2c
              rw [(h1 v).2 hn2c]
              unfold updState
              rw [if_pos hvd, hvd]
          · intro hcv
            rw [(h1 v).2 (fun hc => hcv (Or.inr hc))]
            unfold updState
            rw [if_neg (fun hvd => hcv (Or.inl hvd))]
        intro v
        constructor
        · intro hc
          by_cases hrestC : SisterMarks t fuel dght rest v
          · rw [(h2 v).1 hrestC]
            by_cases hcv : v = d' ∨ (v ∈ t.nodes ∧
                pathFuel t fuel d' v NONSCOPE_RELATIONS = some true ∧ dght.index < v.index)
            · rw [(hs2 v).1 hcv, update_marking_idem]
            · rw [(hs2 v).2 hcv]
          · rw [(h2 v).2 hrestC]
            apply (hs2 v).1
            rcases hc with ⟨hm, hne, hidx⟩ | ⟨d2, hm, hne, hidx, hmem, hpt, hvidx⟩
            · rcases List.mem_cons.mp hm with h3 | h3
              · exact Or.inl h3
              · exact absurd (Or.inl ⟨h3, hne, hidx⟩) hrestC
            · rcases List.mem_cons.mp hm with h3 | h3
              · subst h3
                exact Or.inr ⟨hmem, hpt, hvidx⟩
              · exact absurd (Or.inr ⟨d2, h3, hne, hidx, hmem, hpt, hvidx⟩) hrestC
        · intro hnc
          have hrestC : ¬ SisterMarks t fuel dght rest v := by
            intro hc
            apply hnc
            rcases hc with ⟨hm, hx⟩ | ⟨d2, hm, hx⟩
            · exact Or.inl ⟨List.mem_cons_of_mem _ hm, hx⟩
            · exact Or.inr ⟨d2, List.mem_cons_of_mem _ hm, hx⟩
          rw [(h2 v).2 hrestC]
          apply (hs2 v).2
          rintro (hvd | hn2c)
          · subst hvd
            exact hnc (Or.inl ⟨List.mem_cons_self _ _, hq.1, hq.2⟩)
          · exact hnc (Or.inr ⟨d', List.mem_cons_self _ _, hq.1, hq.2, hn2c⟩)
    · rw [if_neg hq] at h
      have h2 := ih s s' h
      intro v
      constructor
      · intro hc
        apply (h2 v).1
        rcases hc with ⟨hm, hne, hidx⟩ | ⟨d2, hm, hne, hidx, hrest⟩
        · rcases List.mem_cons.mp hm with h3 | h3
          · subst h3
            exact absurd ⟨hne, hidx⟩ hq
          · exact Or.inl ⟨h3, hne, hidx⟩
        · rcases List.mem_cons.mp hm with h3 | h3
          · subst h3
            exact absurd ⟨hne, hidx⟩ hq
          · exact Or.inr ⟨d2, h3, hne, hidx, hrest⟩
      · intro hnc
        apply (h2 v).2
        intro hc
        apply hnc
        rcases hc with ⟨hm, hx⟩ | ⟨d2, hm, hx⟩
        · exact Or.inl ⟨List.mem_cons_of_mem _ hm, hx⟩
        · exact Or.inr ⟨d2, List.mem_cons_of_mem _ hm, hx⟩

theorem processTrigger_char {t : Tree} {marking : String} {fuel : Nat} {mom dght : Node}
    {s s' : MarkState} (h : processTrigger t marking fuel mom dght s = some s') :
    ∀ v, (TriggerMarks t fuel mom dght v → s' v = update_marking (s v) marking) ∧
         (¬ TriggerMarks t fuel mom dght v → s' v = s v) := by
  unfold processTrigger at h
  have hs := sister_loop_char _ _ _ h
  intro v
  constructor
  · intro hc
    by_cases hsm : SisterMarks t fuel dght (t.daughters mom NONSCOPE_RELATIONS) v
    · rw [(hs v).1 hsm]
      unfold updState
      by_cases hvm : v = mom
      · rw [if_pos hvm, hvm, update_marking_idem]
      · rw [if_neg hvm]
    · have hvm : v = mom := hc.resolve_right hsm
      rw [(hs v).2 hsm]
      unfold updState
      rw [if_pos hvm, hvm]
  · intro hnc
    rw [(hs v).2 (fun hc => hnc (Or.inr hc))]
    unfold updState
    rw [if_neg (fun hvm => hnc (Or.inl hvm))]

theorem pathAnyAux_true {rec : Node → Option Bool} :
    ∀ {ds : List Node}, pathAnyAux rec ds = some true → ∃ d, d ∈ ds ∧ rec d = some true := by
  intro ds
  induction ds with
  | nil =>
    intro h
    exact absurd (Option.some.inj h) (by decide)
  | cons d ds ih =>
    intro h
    simp only [pathAnyAux] at h
    cases hr : rec d with
    | none => rw [hr] at h; cases h
    | some b =>
      rw [hr] at h
      cases b with
      | true => exact ⟨d, List.mem_cons_self _ _, hr⟩
      | false =>
        dsimp only at h
        obtain ⟨d2, hm, hd2⟩ := ih h
        exact ⟨d2, List.mem_cons_of_mem _ hm, hd2⟩

theorem reach_of_pathFuel_true {t : Tree} {blockers : List String} :
    ∀ (fuel : Nat) (x y : Node), pathFuel t fuel x y blockers = some true → Reach t x y := by
  intro fuel
  induction fuel with
  | zero =>
    intro x y h
    cases h
  | succ f ih =>
    intro x y h
    simp only [pathFuel] at h
    by_cases hmem : y ∈ t.daughters x NONSCOPE_RELATIONS
    · exact Reach.step hmem
    · rw [if_neg hmem] at h
      obtain ⟨d, hd, hrec⟩ := pathAnyAux_true h
      exact Reach.trans hd (ih d y hrec)

theorem not_reach_tC6_a2 : ¬ Reach tC6 ⟨"a", 2⟩ ⟨"a", 2⟩ := by
  have hda : tC6.daughters ⟨"a", 2⟩ NONSCOPE_RELATIONS = [⟨"not", 1⟩] := by decide
  have hdn : tC6.daughters ⟨"not", 1⟩ NONSCOPE_RELATIONS = [] := by decide
  intro h
  cases h with
  | step hmem =>
    rw [hda] at hmem
    exact absurd (List.mem_singleton.mp hmem) (by decide)
  | trans hmem hr =>
    rw [hda] at hmem
    cases List.mem_singleton.mp hmem
    cases hr with
    | step hmem2 => rw [hdn] at hmem2; exact List.not_mem_nil _ hmem2
    | trans hmem2 _ => rw [hdn] at hmem2; exact List.not_mem_nil _ hmem2

theorem not_reach_tC6_a2_z3 : ¬ Reach tC6 ⟨"a", 2⟩ ⟨"z", 3⟩ := by
  have hda : tC6.daughters ⟨"a", 2⟩ NONSCOPE_RELATIONS = [⟨"not", 1⟩] := by decide
  have hdn : tC6.daughters ⟨"not", 1⟩ NONSCOPE_RELATIONS = [] := by decide
  intro h
  cases h with
  | step hmem =>
    rw [hda] at hmem
    exact absurd (List.mem_singleton.mp hmem) (by decide)
  | trans hmem hr =>
    rw [hda] at hmem
    cases List.mem_singleton.mp hmem
    cases hr with
    | step hmem2 => rw [hdn] at hmem2; exact List.not_mem_nil _ hmem2
    | trans hmem2 _ => rw [hdn] at hmem2; exact List.not_mem_nil _ hmem2

/-- C8: on the Scenario 3 input, the veridicality pass marks
`outstanding-7`, `it-4`, `would-5` and `be-6` NONVERIDICAL and leaves `i-1`
with its default VERIDICAL marking. -/
theorem C8_scenario3_veridicality :
    Tree.ofString sC8 = some tC8 ∧
    (veridicality_markingF tC8 8 initState).map (fun s =>
      ((s ⟨"outstanding", 7⟩).veridicality, (s ⟨"it", 4⟩).veridicality,
       (s ⟨"would", 5⟩).veridicality, (s ⟨"be", 6⟩).veridicality,
       (s ⟨"i", 1⟩).veridicality)) =
      some (NONVERIDICAL, NONVERIDICAL, NONVERIDICAL, NONVERIDICAL, VERIDICAL) ∧
    (initState ⟨"i", 1⟩).veridicality = VERIDICAL := by decide

/-- C9: an input string in which the edge pattern finds no match yields a
tree with no edges and no nodes, empty linear outputs, and marking passes
that terminate and change nothing. -/
theorem C9_no_match_empty_tree (s : String) (h : findall s.data = []) :
    Tree.ofString s = some { edges := [] } ∧
    Tree.nodes { edges := [] } = [] ∧
    Tree.words { edges := [] } = [] ∧
    words_with_scope_markings { edges := [] } initState = [] ∧
    (∀ fuel st, polarity_markingF { edges := [] } fuel st = some st) ∧
    (∀ fuel st, veridicality_markingF { edges := [] } fuel st = some st) := by
  refine ⟨?_, rfl, rfl, rfl, fun fuel st => rfl, fun fuel st => rfl⟩
  rw [Tree.ofString, h]
  rfl

/-- Witness for C9 at the empty input string. -/
theorem C9_no_match_empty_tree_witness :
    Tree.ofString ("") = some { edges := [] } :=
  (C9_no_match_empty_tree ("") rfl).1

/-- C7: the node list derived at construction has no duplicate
(word, index) entries and is sorted ascending by index. -/
theorem C7_nodes_nodup_sorted (s : String) (t : Tree) (h : Tree.ofString s = some t) :
    t.nodes.Nodup ∧ t.nodes.Pairwise (fun a b => a.index ≤ b.index) :=
  ⟨get_nodes_nodup t.edges, get_nodes_sorted t.edges⟩

/-- Witness for C7 at the Scenario 3 input. -/
theorem C7_nodes_nodup_sorted_witness :
    tC8.nodes.Nodup ∧ tC8.nodes.Pairwise (fun a b => a.index ≤ b.index) :=
  C7_nodes_nodup_sorted sC8 tC8 rfl

/-- C2 (code bug evidence): the blockers argument of `path` is dead — the
result is the same for every blockers list, because `daughters` is always
called with `NONSCOPE_RELATIONS` — and on the single-edge tree
`nsubj(a-1, b-2)`, with the blockers argument `["nsubj"]` every edge of the
tree is blocked, yet `path` returns True. -/
theorem C2_blockers_ignored :
    (∀ (t : Tree) (fuel : Nat) (x y : Node) (b b' : List String),
      pathFuel t fuel x y b = pathFuel t fuel x y b') ∧
    Tree.ofString sC2 = some tC2 ∧
    tC2.edges.all (fun e => List.contains ["nsubj"] e.rel) = true ∧
    pathFuel tC2 2 ⟨"a", 1⟩ ⟨"b", 2⟩ ["nsubj"] = some true :=
  ⟨pathFuel_blockers_irrelevant, by decide, by decide, by decide⟩

/-- C4 counterexample: `VERIDICAL` and `UPWARD` are the same empty string,
so passing `VERIDICAL` changes the monotonicity marking and leaves the
veridicality marking untouched; and an unknown value is silently ignored
rather than rejected. -/
theorem C4_update_marking_cex :
    VERIDICAL = UPWARD ∧
    (update_marking ⟨DOWNWARD, NONVERIDICAL⟩ VERIDICAL).veridicality = NONVERIDICAL ∧
    (update_marking ⟨DOWNWARD, NONVERIDICAL⟩ VERIDICAL).monotonicity = UPWARD ∧
    update_marking ⟨DOWNWARD, NONVERIDICAL⟩ ("bogus") = ⟨DOWNWARD, NONVERIDICAL⟩ := by
  decide

/-- C4 amended: `update_marking` sets exactly the monotonicity marking for
`UPWARD` (which equals `VERIDICAL`) and `DOWNWARD`, sets exactly the
veridicality marking for `NONVERIDICAL`, and silently leaves the markings
unchanged for every other value. -/
theorem C4_update_marking_amended (m : Markings) (v : String) :
    (v = UPWARD ∨ v = DOWNWARD → update_marking m v = { m with monotonicity := v }) ∧
    (v = NONVERIDICAL → update_marking m v = { m with veridicality := v }) ∧
    (v ≠ UPWARD ∧ v ≠ DOWNWARD ∧ v ≠ NONVERIDICAL → update_marking m v = m) := by
  refine ⟨fun h => ?_, fun h => ?_, fun h => ?_⟩
  · unfold update_marking
    rw [if_pos h]
  · subst h
    unfold update_marking
    rw [if_neg (by decide), if_pos (Or.inr rfl)]
  · unfold update_marking
    rw [if_neg (fun hc => hc.elim h.1 h.2.1),
      if_neg (fun hc => hc.elim (fun hv => h.1 hv) h.2.2)]

/-- Witness for C4 at the value `NONVERIDICAL` on unmarked markings. -/
theorem C4_update_marking_amended_witness :
    update_marking ⟨UPWARD, VERIDICAL⟩ NONVERIDICAL = ⟨UPWARD, NONVERIDICAL⟩ :=
  (C4_update_marking_amended ⟨UPWARD, VERIDICAL⟩ NONVERIDICAL).2.1 rfl

/-- C5 counterexample: on the input `nsubj(m-1, x-4), neg(a-2, not-3),
dobj(a-2, x-4)` one polarity pass leaves `m-1` unmarked but a second pass
marks it DOWNWARD, so the pass is not idempotent. -/
theorem C5_idempotence_cex :
    Tree.ofString sC5 = some tC5 ∧
    (polarity_markingF tC5 5 initState).map (fun s => (s ⟨"m", 1⟩).monotonicity) =
      some UPWARD ∧
    ((polarity_markingF tC5 5 initState).bind (fun s => polarity_markingF tC5 5 s)).map
      (fun s => (s ⟨"m", 1⟩).monotonicity) = some DOWNWARD ∧
    UPWARD ≠ DOWNWARD := by decide

/-- C1 counterexample: on the input `nsubj(a-2, a-2), neg(a-2, not-3)` the
node `a-2` is an unblocked daughter (sister) of mother `a-2` distinct from
the only trigger `not-3` and with index 2 ≤ 3, yet the polarity pass marks
it (as the mother). -/
theorem C1_left_sister_marked_cex :
    Tree.ofString sC1c = some tC1c ∧
    (⟨"a", 2⟩ : Node) ∈ tC1c.daughters ⟨"a", 2⟩ NONSCOPE_RELATIONS ∧
    (⟨"a", 2⟩ : Node) ≠ ⟨"not", 3⟩ ∧
    (⟨"a", 2⟩ : Node).index ≤ (⟨"not", 3⟩ : Node).index ∧
    downward_spread tC1c initState ⟨"a", 2⟩ = [⟨"not", 3⟩] ∧
    (initState ⟨"a", 2⟩).monotonicity = UPWARD ∧
    (polarity_markingF tC1c 3 initState).map (fun s => (s ⟨"a", 2⟩).monotonicity) =
      some DOWNWARD := by decide

/-- C3 counterexample: on the self-loop input `nsubj(a-1, a-1)` the modeled
path search returns `none` at every recursion depth: the Python recursion
never terminates, and no cycle is detected or reported. -/
theorem C3_cycle_divergence_cex :
    Tree.ofString sCyc = some tCyc ∧
    PathDiverges tCyc ⟨"a", 1⟩ ⟨"b", 2⟩ NONSCOPE_RELATIONS := by
  refine ⟨by decide, ?_⟩
  intro fuel
  induction fuel with
  | zero => rfl
  | succ f ih =>
    have hd : tCyc.daughters ⟨"a", 1⟩ NONSCOPE_RELATIONS = [⟨"a", 1⟩] := by decide
    show pathFuel tCyc (f + 1) ⟨"a", 1⟩ ⟨"b", 2⟩ NONSCOPE_RELATIONS = none
    simp only [pathFuel]
    rw [hd, if_neg (by decide)]
    simp only [pathAnyAux]
    rw [ih]

/-- C10: `get_edge` returns the first edge in input order between a pair of
nodes, `daughters` lists the target at most once, and the target is listed
exactly when that first edge's relation label is not blocked; the later
parallel edges are never consulted. -/
theorem C10_first_edge_wins (s : String) (t : Tree) (hs : Tree.ofString s = some t)
    (x y : Node) (blockers : List String) :
    List.count y (t.daughters x blockers) ≤ 1 ∧
    (∀ pre e post, t.edges = pre ++ e :: post →
        (∀ e2, e2 ∈ pre → ¬(e2.from_node = x ∧ e2.to_node = y)) →
        e.from_node = x → e.to_node = y → t.get_edge x y = some e) ∧
    (y ∈ t.daughters x blockers ↔ ∃ e, t.get_edge x y = some e ∧ e.rel ∉ blockers) := by
  refine ⟨?_, fun pre e post h1 h2 h3 h4 => get_edge_eq_first h1 h2 h3 h4, ?_⟩
  · exact le_trans ((daughters_sublist_nodes t x blockers).count_le y)
      (List.nodup_iff_count_le_one.mp (get_nodes_nodup t.edges) y)
  · rw [mem_daughters_iff]
    constructor
    · rintro ⟨_, he⟩
      exact he
    · rintro ⟨e, hge, hrel⟩
      refine ⟨?_, e, hge, hrel⟩
      have hmem : e ∈ t.edges := List.mem_of_find?_eq_some hge
      have hto : e.to_node = y := by
        have hp := List.find?_some hge
        rw [Bool.and_eq_true, beq_iff_eq, beq_iff_eq] at hp
        exact hp.2
      rw [← hto]
      exact (mem_get_nodes_of_mem_edges hmem).2

/-- Witness for C10 on the parallel-edge input `nsubj(a-2, b-1),
conj_and(a-2, b-1)`: the first `nsubj` edge wins over the later blocked
`conj_and` edge. -/
theorem C10_first_edge_wins_witness :
    tC10.get_edge ⟨"a", 2⟩ ⟨"b", 1⟩ = some ⟨"nsubj", ⟨"a", 2⟩, ⟨"b", 1⟩⟩ ∧
    List.count (⟨"b", 1⟩ : Node) (tC10.daughters ⟨"a", 2⟩ NONSCOPE_RELATIONS) ≤ 1 ∧
    (⟨"b", 1⟩ : Node) ∈ tC10.daughters ⟨"a", 2⟩ NONSCOPE_RELATIONS := by
  have hC := C10_first_edge_wins sC10 tC10 rfl ⟨"a", 2⟩ ⟨"b", 1⟩ NONSCOPE_RELATIONS
  have hge : tC10.get_edge ⟨"a", 2⟩ ⟨"b", 1⟩ = some ⟨"nsubj", ⟨"a", 2⟩, ⟨"b", 1⟩⟩ :=
    hC.2.1 [] ⟨"nsubj", ⟨"a", 2⟩, ⟨"b", 1⟩⟩ [⟨"conj_and", ⟨"a", 2⟩, ⟨"b", 1⟩⟩]
      (by decide) (by simp) rfl rfl
  exact ⟨hge, hC.1, hC.2.2.mpr ⟨⟨"nsubj", ⟨"a", 2⟩, ⟨"b", 1⟩⟩, hge, by decide⟩⟩

/-- C6 counterexample: on the input `neg(a-2, not-1), conj_and(a-2, z-3),
conj_and(z-3, a-2)` every path from mother `a-2` back to the candidate
`a-2` crosses a blocked `conj_and` edge (no unblocked path exists), yet the
pass driven by the trigger `not-1` found under `a-2` marks `a-2`. -/
theorem C6_blocked_candidate_cex :
    (¬ Reach tC6 ⟨"a", 2⟩ ⟨"a", 2⟩) ∧
    Tree.ofString sC6 = some tC6 ∧
    downward_spread tC6 initState ⟨"a", 2⟩ = [⟨"not", 1⟩] ∧
    (initState ⟨"a", 2⟩).monotonicity = UPWARD ∧
    (polarity_markingF tC6 4 initState).map (fun s => (s ⟨"a", 2⟩).monotonicity) =
      some DOWNWARD := by
  exact ⟨not_reach_tC6_a2, by decide, by decide, by decide, by decide⟩

/-- C1 amended: the engine visits the derived node list, which is sorted
ascending by index, and processing one trigger `dght` under a mother `mom`
updates with the pass's marking exactly the nodes of `TriggerMarks`: the
mother, the unblocked daughters of the mother distinct from the trigger and
strictly to its right, and the tree nodes reachable from such a daughter
via unblocked edges that are strictly to the right of the trigger; every
other node (in particular a sister distinct from the mother whose index is
at most the trigger's) keeps its marking. -/
theorem C1_trigger_marking_amended (t : Tree) (marking : String) (fuel : Nat)
    (mom dght : Node) (s s' : MarkState)
    (h : processTrigger t marking fuel mom dght s = some s') :
    (∀ spread s0, scope_markingF t marking spread fuel s0 =
      mom_loop t marking fuel spread t.nodes s0) ∧
    t.nodes.Pairwise (fun a b => a.index ≤ b.index) ∧
    ∀ v, (TriggerMarks t fuel mom dght v → s' v = update_marking (s v) marking) ∧
         (¬ TriggerMarks t fuel mom dght v → s' v = s v) :=
  ⟨fun _ _ => rfl, get_nodes_sorted t.edges, processTrigger_char h⟩

/-- Witness for C1 on the tree of `neg(good-2, not-1), advmod(good-2,
very-3)`: processing the trigger `not-1` under mother `good-2` marks the
right sister `very-3`. -/
theorem C1_trigger_marking_amended_witness :
    ((processTrigger tC1w DOWNWARD 1 ⟨"good", 2⟩ ⟨"not", 1⟩ initState).getD initState)
        ⟨"very", 3⟩ = update_marking (initState ⟨"very", 3⟩) DOWNWARD := by
  have h : processTrigger tC1w DOWNWARD 1 ⟨"good", 2⟩ ⟨"not", 1⟩ initState =
      some ((processTrigger tC1w DOWNWARD 1 ⟨"good", 2⟩ ⟨"not", 1⟩ initState).getD
        initState) := rfl
  exact ((C1_trigger_marking_amended tC1w DOWNWARD 1 ⟨"good", 2⟩ ⟨"not", 1⟩ initState _ h).2.2
    ⟨"very", 3⟩).1 (Or.inr (Or.inl ⟨by decide, by decide, by decide⟩))

/-- C6 amended: if no unblocked path leads from the trigger's mother to a
candidate node distinct from the mother, then processing that trigger
leaves the candidate's marking unchanged. -/
theorem C6_blocking_amended (t : Tree) (marking : String) (fuel : Nat)
    (mom dght cand : Node) (s s' : MarkState)
    (h : processTrigger t marking fuel mom dght s = some s')
    (hne : cand ≠ mom) (hnr : ¬ Reach t mom cand) :
    s' cand = s cand := by
  refine (processTrigger_char h cand).2 (fun hc => ?_)
  rcases hc with hm | hsm
  · exact hne hm
  · rcases hsm with ⟨hmem, _, _⟩ | ⟨d', hd, _, _, _, hpt, _⟩
    · exact hnr (Reach.step hmem)
    · exact hnr (Reach.trans hd (reach_of_pathFuel_true _ _ _ hpt))

/-- Witness for C6 on the tree of `sC6`: the candidate `z-3`, reachable from
mother `a-2` only across blocked `conj_and` edges, keeps its marking when
the trigger `not-1` under `a-2` is processed. -/
theorem C6_blocking_amended_witness :
    ((processTrigger tC6 DOWNWARD 1 ⟨"a", 2⟩ ⟨"not", 1⟩ initState).getD initState)
        ⟨"z", 3⟩ = initState ⟨"z", 3⟩ := by
  have h : processTrigger tC6 DOWNWARD 1 ⟨"a", 2⟩ ⟨"not", 1⟩ initState =
      some ((processTrigger tC6 DOWNWARD 1 ⟨"a", 2⟩ ⟨"not", 1⟩ initState).getD
        initState) := rfl
  exact C6_blocking_amended tC6 DOWNWARD 1 ⟨"a", 2⟩ ⟨"not", 1⟩ ⟨"z", 3⟩ initState _ h
    (by decide) not_reach_tC6_a2_z3

theorem processTrigger_preserves (Q : Markings → Prop) {t : Tree} {marking : String}
    {fuel : Nat} {mom dght : Node} {s s' : MarkState}
    (hQ : ∀ ms, Q ms → Q (update_marking ms marking))
    (h : processTrigger t marking fuel mom dght s = some s') :
    ∀ v, Q (s v) → Q (s' v) := by
  intro v hv
  by_cases hc : TriggerMarks t fuel mom dght v
  · rw [(processTrigger_char h v).1 hc]
    exact hQ _ hv
  · rw [(processTrigger_char h v).2 hc]
    exact hv

theorem trigger_loop_preserves (Q : Markings → Prop) {t : Tree} {marking : String}
    {fuel : Nat} {mom : Node} (hQ : ∀ ms, Q ms → Q (update_marking ms marking)) :
    ∀ (ds : List Node) (s s' : MarkState),
      trigger_loop t marking fuel mom ds s = some s' → ∀ v, Q (s v) → Q (s' v) := by
  intro ds
  induction ds with
  | nil =>
    intro s s' h v hv
    cases h
    exact hv
  | cons dght rest ih =>
    intro s s' h v hv
    simp only [trigger_loop] at h
    cases hp : processTrigger t marking fuel mom dght s with
    | none => rw [hp] at h; cases h
    | some s2 =>
      rw [hp] at h
      dsimp only at h
      exact ih s2 s' h v (processTrigger_preserves Q hQ hp v hv)

theorem mom_loop_preserves (Q : Markings → Prop) {t : Tree} {marking : String}
    {fuel : Nat} {spread : Tree → MarkState → Node → List Node}
    (hQ : ∀ ms, Q ms → Q (update_marking ms marking)) :
    ∀ (ms : List Node) (s s' : MarkState),
      mom_loop t marking fuel spread ms s = some s' → ∀ v, Q (s v) → Q (s' v) := by
  intro ms
  induction ms with
  | nil =>
    intro s s' h v hv
    cases h
    exact hv
  | cons mom rest ih =>
    intro s s' h v hv
    simp only [mom_loop] at h
    cases hp : trigger_loop t marking fuel mom (spread t s mom) s with
    | none => rw [hp] at h; cases h
    | some s2 =>
      rw [hp] at h
      dsimp only at h
      exact ih s2 s' h v (trigger_loop_preserves Q hQ _ s s2 hp v hv)

/-- C5 amended: a marking pass never reverts a marking: every node that is
DOWNWARD (NONVERIDICAL) after one run of the polarity (veridicality) pass
is still so after a second run.  The second run is monotone over the first,
but not idempotent (see the counterexample). -/
theorem C5_second_run_monotone (t : Tree) (fuel : Nat) (s1 s2 r1 r2 : MarkState)
    (hp1 : polarity_markingF t fuel initState = some s1)
    (hp2 : polarity_markingF t fuel s1 = some s2)
    (hv1 : veridicality_markingF t fuel initState = some r1)
    (hv2 : veridicality_markingF t fuel r1 = some r2) :
    (∀ n, (s1 n).monotonicity = DOWNWARD → (s2 n).monotonicity = DOWNWARD) ∧
    (∀ n, (r1 n).veridicality = NONVERIDICAL → (r2 n).veridicality = NONVERIDICAL) := by
  constructor
  · intro n hn
    refine mom_loop_preserves (fun ms => ms.monotonicity = DOWNWARD) (fun ms _ => ?_)
      t.nodes s1 s2 hp2 n hn
    unfold update_marking
    rw [if_pos (Or.inr rfl)]
  · intro n hn
    refine mom_loop_preserves (fun ms => ms.veridicality = NONVERIDICAL) (fun ms _ => ?_)
      t.nodes r1 r2 hv2 n hn
    unfold update_marking
    rw [if_neg (by decide), if_pos (Or.inr rfl)]

/-- Witness for C5 on the tree of `sC5`: the node `x-4`, marked DOWNWARD by
the first polarity run, is still DOWNWARD after the second run. -/
theorem C5_second_run_monotone_witness :
    (((polarity_markingF tC5 5 ((polarity_markingF tC5 5 initState).getD initState)).getD
        initState) ⟨"x", 4⟩).monotonicity = DOWNWARD := by
  have hp1 : polarity_markingF tC5 5 initState =
      some ((polarity_markingF tC5 5 initState).getD initState) := rfl
  have hp2 : polarity_markingF tC5 5 ((polarity_markingF tC5 5 initState).getD initState) =
      some ((polarity_markingF tC5 5 ((polarity_markingF tC5 5 initState).getD
        initState)).getD initState) := rfl
  have hv1 : veridicality_markingF tC5 5 initState =
      some ((veridicality_markingF tC5 5 initState).getD initState) := rfl
  have hv2 : veridicality_markingF tC5 5
      ((veridicality_markingF tC5 5 initState).getD initState) =
      some ((veridicality_markingF tC5 5 ((veridicality_markingF tC5 5 initState).getD
        initState)).getD initState) := rfl
  exact (C5_second_run_monotone tC5 5 _ _ _ _ hp1 hp2 hv1 hv2).1 ⟨"x", 4⟩ (by decide)

theorem pathAnyAux_isSome {rec : Node → Option Bool} :
    ∀ (ds : List Node), (∀ d, d ∈ ds → (rec d).isSome = true) →
      (pathAnyAux rec ds).isSome = true := by
  intro ds
  induction ds with
  | nil => intro _; rfl
  | cons d rest ih =>
    intro hall
    simp only [pathAnyAux]
    cases hr : rec d with
    | none =>
      have hd := hall d (List.mem_cons_self _ _)
      rw [hr] at hd
      cases hd
    | some b =>
      cases b with
      | true => rfl
      | false =>
        dsimp only
        exact ih (fun d2 h2 => hall d2 (List.mem_cons_of_mem _ h2))

open Classical in
theorem pathFuel_isSome_of_acyclic {t : Tree} (hacyc : ∀ n, ¬ Reach t n n) (y : Node)
    (blockers : List String) :
    ∀ (fuel : Nat) (x : Node), x ∈ t.nodes →
      (Finset.filter (fun n => x = n ∨ Reach t x n) t.nodes.toFinset).card ≤ fuel →
      (pathFuel t fuel x y blockers).isSome = true := by
  intro fuel
  induction fuel with
  | zero =>
    intro x hx hcard
    exfalso
    have hpos : 0 < (Finset.filter (fun n => x = n ∨ Reach t x n) t.nodes.toFinset).card :=
      Finset.card_pos.mpr ⟨x, Finset.mem_filter.mpr ⟨List.mem_toFinset.mpr hx, Or.inl rfl⟩⟩
    omega
  | succ f ih =>
    intro x hx hcard
    simp only [pathFuel]
    by_cases hmem : y ∈ t.daughters x NONSCOPE_RELATIONS
    · rw [if_pos hmem]
      rfl
    · rw [if_neg hmem]
      apply pathAnyAux_isSome
      intro d hd
      have hdn : d ∈ t.nodes := mem_nodes_of_mem_daughters hd
      apply ih d hdn
      have hsub : Finset.filter (fun n => d = n ∨ Reach t d n) t.nodes.toFinset ⊆
          Finset.filter (fun n => x = n ∨ Reach t x n) t.nodes.toFinset := by
        intro n hn
        rw [Finset.mem_filter] at hn ⊢
        refine ⟨hn.1, Or.inr ?_⟩
        rcases hn.2 with h1 | h1
        · subst h1
          exact Reach.step hd
        · exact Reach.trans hd h1
      have hxin : x ∈ Finset.filter (fun n => x = n ∨ Reach t x n) t.nodes.toFinset :=
        Finset.mem_filter.mpr ⟨List.mem_toFinset.mpr hx, Or.inl rfl⟩
      have hxout : x ∉ Finset.filter (fun n => d = n ∨ Reach t d n) t.nodes.toFinset := by
        intro hin
        rcases (Finset.mem_filter.mp hin).2 with h1 | h1
        · subst h1
          exact hacyc d (Reach.step hd)
        · exact hacyc x (Reach.trans hd h1)
      have hlt : (Finset.filter (fun n => d = n ∨ Reach t d n) t.nodes.toFinset).card <
          (Finset.filter (fun n => x = n ∨ Reach t x n) t.nodes.toFinset).card :=
        Finset.card_lt_card ((Finset.ssubset_iff_of_subset hsub).mpr ⟨x, hxin, hxout⟩)
      omega

/-- C3 amended: on a tree whose unblocked edges are acyclic, the path
search terminates within recursion depth `|nodes| + 1` for every pair of
endpoints and every blockers argument; with an unblocked cycle it recurses
forever with no cycle detection (see the counterexample). -/
theorem C3_path_terminates_amended (t : Tree) (x y : Node) (blockers : List String)
    (hacyc : ∀ n, ¬ Reach t n n) :
    (pathFuel t (t.nodes.length + 1) x y blockers).isSome = true := by
  classical
  have hbound : ∀ z, z ∈ t.nodes →
      (Finset.filter (fun n => z = n ∨ Reach t z n) t.nodes.toFinset).card ≤
        t.nodes.length :=
    fun z _ => le_trans (Finset.card_filter_le _ _) t.nodes.toFinset_card_le
  by_cases hx : x ∈ t.nodes
  · exact pathFuel_isSome_of_acyclic hacyc y blockers (t.nodes.length + 1) x hx
      (le_trans (hbound x hx) (Nat.le_succ _))
  · simp only [pathFuel]
    by_cases hmem : y ∈ t.daughters x NONSCOPE_RELATIONS
    · rw [if_pos hmem]
      rfl
    · rw [if_neg hmem]
      apply pathAnyAux_isSome
      intro d hd
      have hdn : d ∈ t.nodes := mem_nodes_of_mem_daughters hd
      exact pathFuel_isSome_of_acyclic hacyc y blockers t.nodes.length d hdn (hbound d hdn)

theorem tAcy_acyclic : ∀ n, ¬ Reach tAcy n n := by
  have hd : ∀ x n, n ∈ tAcy.daughters x NONSCOPE_RELATIONS →
      x = ⟨"a", 1⟩ ∧ n = ⟨"b", 2⟩ := by
    intro x n hn
    rw [mem_daughters_iff] at hn
    obtain ⟨_, e, hge, _⟩ := hn
    have he : e ∈ tAcy.edges := List.mem_of_find?_eq_some hge
    have hfe := List.find?_some hge
    rw [Bool.and_eq_true, beq_iff_eq, beq_iff_eq] at hfe
    have hedges : tAcy.edges = [⟨"nsubj", ⟨"a", 1⟩, ⟨"b", 2⟩⟩] := by decide
    rw [hedges] at he
    cases List.mem_singleton.mp he
    exact ⟨hfe.1.symm, hfe.2.symm⟩
  have htgt : ∀ p q, Reach tAcy p q → q = ⟨"b", 2⟩ := by
    intro p q hr
    induction hr with
    | step hm => exact (hd _ _ hm).2
    | trans hm hr ih => exact ih
  intro n h
  have hn2 : n = ⟨"b", 2⟩ := htgt n n h
  subst hn2
  cases h with
  | step hm => exact absurd (hd _ _ hm).1 (by decide)
  | trans hm _ => exact absurd (hd _ _ hm).1 (by decide)

/-- Witness for C3 on the acyclic single-edge tree of `sAcy`. -/
theorem C3_path_terminates_amended_witness :
    (pathFuel tAcy (tAcy.nodes.length + 1) ⟨"a", 1⟩ ⟨"b", 2⟩
      NONSCOPE_RELATIONS).isSome = true :=
  C3_path_terminates_amended tAcy ⟨"a", 1⟩ ⟨"b", 2⟩ NONSCOPE_RELATIONS tAcy_acyclic

end DependencyTree
